import Mathlib

/-!
# Verification of the `entity-system` runtime

A shallow embedding of the core data structures and operations of the
`entity-system` crate (entity identity allocator, dense component storage,
entity manager, query engine, deferred event dispatcher, system scheduler),
together with proofs of the behavioural properties stated in the crate's
specification.

Entity identities (`u32` in the source) are modelled as `Nat`; `Instant`
values are modelled as `Nat` (only their total order matters to the code);
operations that can panic return `Option`.
-/

namespace EntitySystem

/-! ## Entity identity allocator (`src/entity.rs`)

`EntityAllocator` holds `next` (the smallest identity never yet issued) and
`free` (a `HashSet` of released identities).  `alloc` pops an arbitrary
element of `free` when it is non-empty — the `HashSet` iteration order is
unspecified, so allocation is modelled as a relation in which any member of
`free` may be picked. -/

structure EntityAllocator where
  next : Nat
  free : Finset Nat
deriving DecidableEq

/-- `EntityAllocator::new()`: `next = 0`, empty free set. -/
def EntityAllocator.new : EntityAllocator := ⟨0, ∅⟩

/-- `EntityAllocator::free(entity)`: insert the identity into the free set. -/
def EntityAllocator.freeEntity (a : EntityAllocator) (e : Nat) : EntityAllocator :=
  ⟨a.next, insert e a.free⟩

/-- `EntityAllocator::alloc()`.  `AllocStep a e a'` holds when one call to
`alloc` on state `a` may return identity `e` leaving state `a'`: either some
element of `free` is picked (any element — `HashSet::iter().next()` is
arbitrary) and removed, or `free` is empty and `next` is returned and
incremented. -/
inductive AllocStep : EntityAllocator → Nat → EntityAllocator → Prop
  | fromFree {a : EntityAllocator} {e : Nat} (he : e ∈ a.free) :
      AllocStep a e ⟨a.next, a.free.erase e⟩
  | fresh {a : EntityAllocator} (hfree : a.free = ∅) :
      AllocStep a a.next ⟨a.next + 1, a.free⟩

/-- A sequence of consecutive `alloc` calls returning the listed identities. -/
inductive AllocSeq : EntityAllocator → List Nat → EntityAllocator → Prop
  | nil (a : EntityAllocator) : AllocSeq a [] a
  | cons {a a₁ a₂ : EntityAllocator} {e : Nat} {es : List Nat} :
      AllocStep a e a₁ → AllocSeq a₁ es a₂ → AllocSeq a (e :: es) a₂

/-- An identity is live when it was issued (`< next`) and not freed. -/
def EntityAllocator.live (a : EntityAllocator) (e : Nat) : Prop :=
  e < a.next ∧ e ∉ a.free

lemma allocSeq_empty_free {a a' : EntityAllocator} {ids : List Nat}
    (hfree : a.free = ∅) (h : AllocSeq a ids a') :
    ids = List.range' a.next ids.length ∧ a' = ⟨a.next + ids.length, ∅⟩ := by
  induction h with
  | nil a => simp [← hfree]
  | cons step rest ih =>
    cases step with
    | fromFree he => rw [hfree] at he; exact absurd he (Finset.not_mem_empty _)
    | fresh h0 =>
      obtain ⟨h1, h2⟩ := ih (by simpa using hfree)
      constructor
      · rw [List.length_cons, List.range'_succ]
        exact congrArg _ h1
      · rw [h2]
        simp only [List.length_cons]
        congr 1
        omega

lemma allocSeq_exhausts_free {a a' : EntityAllocator} {ids : List Nat}
    (h : AllocSeq a ids a') (hlen : ids.length = a.free.card) :
    ids.Nodup ∧ ∀ x, x ∈ ids ↔ x ∈ a.free := by
  induction h with
  | nil a =>
    simp only [List.length_nil] at hlen
    have : a.free = ∅ := Finset.card_eq_zero.mp hlen.symm
    simp [this]
  | cons step rest ih =>
    rename_i a a₁ a₂ e es
    cases step with
    | fromFree he =>
      simp only [List.length_cons] at hlen
      have hcard : es.length = (a.free.erase e).card := by
        rw [Finset.card_erase_of_mem he]; omega
      obtain ⟨hnd, hmem'⟩ := ih hcard
      have hmem : ∀ x, x ∈ es ↔ x ∈ a.free.erase e := hmem'
      constructor
      · exact List.nodup_cons.mpr
          ⟨fun hx => Finset.not_mem_erase e a.free ((hmem e).mp hx), hnd⟩
      · intro x
        simp only [List.mem_cons, hmem, Finset.mem_erase]
        constructor
        · rintro (rfl | ⟨_, hx⟩) <;> [exact he; exact hx]
        · intro hx
          rcases eq_or_ne x e with rfl | hne
          · exact Or.inl rfl
          · exact Or.inr ⟨hne, hx⟩
    | fresh h0 =>
      rw [h0] at hlen
      simp at hlen

lemma allocStep_not_live {a a' : EntityAllocator} {e : Nat}
    (h : AllocStep a e a') : ¬ a.live e := by
  cases h with
  | fromFree he => exact fun hl => hl.2 he
  | fresh h0 => exact fun hl => Nat.lt_irrefl _ hl.1

/-- **C2.** From a fresh `EntityAllocator`, `N` consecutive `alloc()` calls
return identities `0, 1, …, N-1` in that order; after freeing a duplicate-free
list `S` of previously issued identities, any `|S|` further `alloc()` calls
return exactly the identities of `S`, each exactly once, in some order; and a
single `alloc()` call never returns a currently live identity. -/
theorem alloc_spec :
    (∀ (ids : List Nat) (a' : EntityAllocator),
      AllocSeq EntityAllocator.new ids a' → ids = List.range ids.length) ∧
    (∀ (N : Nat) (S ids : List Nat) (a' : EntityAllocator),
      S.Nodup →
      AllocSeq (S.foldl EntityAllocator.freeEntity ⟨N, ∅⟩) ids a' →
      ids.length = S.length →
      ids.Nodup ∧ ∀ x, x ∈ ids ↔ x ∈ S) ∧
    (∀ (a a' : EntityAllocator) (e : Nat), AllocStep a e a' → ¬ a.live e) := by
  refine ⟨?_, ?_, fun a a' e h => allocStep_not_live h⟩
  · intro ids a' h
    have := (allocSeq_empty_free rfl h).1
    simpa [List.range_eq_range'] using this
  · intro N S ids a' hnd hseq hlen
    have hfold : ∀ (a : EntityAllocator) (S : List Nat),
        (S.foldl EntityAllocator.freeEntity a).free = a.free ∪ S.toFinset := by
      intro a S
      induction S generalizing a with
      | nil => simp
      | cons x xs ih =>
        simp only [List.foldl_cons, ih, List.toFinset_cons]
        ext y
        simp only [EntityAllocator.freeEntity, Finset.mem_union, Finset.mem_insert]
        tauto
    have hfree : (S.foldl EntityAllocator.freeEntity ⟨N, ∅⟩).free = S.toFinset := by
      rw [hfold]; simp
    have hcard : ids.length = (S.foldl EntityAllocator.freeEntity ⟨N, ∅⟩).free.card := by
      rw [hfree, List.toFinset_card_of_nodup hnd, hlen]
    obtain ⟨h1, h2⟩ := allocSeq_exhausts_free hseq hcard
    refine ⟨h1, fun x => ?_⟩
    rw [h2 x, hfree, List.mem_toFinset]

/-- Witness for `alloc_spec`: three fresh allocations return `[0, 1, 2]`;
freeing `[0, 2]` out of three issued identities and allocating twice returns
exactly `{0, 2}`; and no single allocation from `⟨2, {1}⟩` returns the live
identity `1` (nor any live identity). -/
theorem alloc_spec_witness :
    ([0, 1, 2] : List Nat) = List.range 3 ∧
    (([0, 2] : List Nat).Nodup ∧ ∀ x, x ∈ ([0, 2] : List Nat) ↔ x ∈ ([0, 2] : List Nat)) ∧
    ¬ EntityAllocator.live ⟨2, {1}⟩ 1 := by
  have h0 : AllocStep EntityAllocator.new 0 ⟨1, ∅⟩ := AllocStep.fresh rfl
  have h1 : AllocStep (⟨1, ∅⟩ : EntityAllocator) 1 ⟨2, ∅⟩ := AllocStep.fresh rfl
  have h2 : AllocStep (⟨2, ∅⟩ : EntityAllocator) 2 ⟨3, ∅⟩ := AllocStep.fresh rfl
  have hseq3 : AllocSeq EntityAllocator.new [0, 1, 2] ⟨3, ∅⟩ :=
    AllocSeq.cons h0 (AllocSeq.cons h1 (AllocSeq.cons h2 (AllocSeq.nil _)))
  have e0 : AllocStep (([0, 2] : List Nat).foldl EntityAllocator.freeEntity ⟨3, ∅⟩) 0
      ⟨(([0, 2] : List Nat).foldl EntityAllocator.freeEntity ⟨3, ∅⟩).next,
       (([0, 2] : List Nat).foldl EntityAllocator.freeEntity ⟨3, ∅⟩).free.erase 0⟩ :=
    AllocStep.fromFree (by decide)
  have e2 : AllocStep
      ⟨(([0, 2] : List Nat).foldl EntityAllocator.freeEntity ⟨3, ∅⟩).next,
       (([0, 2] : List Nat).foldl EntityAllocator.freeEntity ⟨3, ∅⟩).free.erase 0⟩ 2
      ⟨(([0, 2] : List Nat).foldl EntityAllocator.freeEntity ⟨3, ∅⟩).next,
       ((([0, 2] : List Nat).foldl EntityAllocator.freeEntity ⟨3, ∅⟩).free.erase 0).erase 2⟩ :=
    AllocStep.fromFree (by decide)
  have hseq2 : AllocSeq (([0, 2] : List Nat).foldl EntityAllocator.freeEntity ⟨3, ∅⟩)
      [0, 2]
      ⟨(([0, 2] : List Nat).foldl EntityAllocator.freeEntity ⟨3, ∅⟩).next,
       ((([0, 2] : List Nat).foldl EntityAllocator.freeEntity ⟨3, ∅⟩).free.erase 0).erase 2⟩ :=
    AllocSeq.cons e0 (AllocSeq.cons e2 (AllocSeq.nil _))
  refine ⟨?_, ?_, ?_⟩
  · have := alloc_spec.1 [0, 1, 2] _ hseq3
    simpa using this
  · exact alloc_spec.2.1 3 [0, 2] [0, 2] _ (by decide) hseq2 rfl
  · exact alloc_spec.2.2 ⟨2, {1}⟩ ⟨2, ({1} : Finset Nat).erase 1⟩ 1
      (AllocStep.fromFree (by decide))

/-! ## Live-entity iteration (`src/entity.rs`, `EntityAllocatorIterator`)

The iterator holds a `current` cursor.  `next_free_entity` advances `current`
past freed identities (breaking out when it reaches `next`); `next` yields
`current` unless it equals `next`, then advances and skips again.  The
iteration is modelled with explicit fuel (one unit per yielded element); for
any allocator state reachable through the public API, `allocator.next` units
of fuel are enough, which is how termination of the Rust loop shows up in the
model. -/

/-- `EntityAllocatorIterator::next_free_entity`: advance the cursor while it
lies in the free set, breaking out when it reaches `next`. -/
def nextFreeEntity (a : EntityAllocator) (c : Nat) : Nat :=
  if c ∈ a.free then
    (if c + 1 = a.next then a.next else nextFreeEntity a (c + 1))
  else c
termination_by a.free.sup id + 1 - c
decreasing_by
  have h : (id c : Nat) ≤ a.free.sup id := Finset.le_sup (by assumption)
  simp only [id_eq] at h
  omega

/-- `EntityAllocatorIterator::next`, iterated: collect yielded identities.
Each `Iterator::next` call yields `current` unless `current == next`, then
sets `current` to `current + 1` and skips freed identities. -/
def iterAux (a : EntityAllocator) : Nat → Nat → List Nat
  | 0, _ => []
  | fuel + 1, c =>
    if c = a.next then [] else c :: iterAux a fuel (nextFreeEntity a (c + 1))

/-- `EntityAllocator::iter()` run to exhaustion: the constructor starts the
cursor at `0` and immediately skips freed identities. -/
def iterList (a : EntityAllocator) (fuel : Nat) : List Nat :=
  iterAux a fuel (nextFreeEntity a 0)

lemma nextFreeEntity_ge (a : EntityAllocator) (c : Nat) : c ≤ nextFreeEntity a c := by
  rw [nextFreeEntity]
  split
  · split
    · next h _ =>
      omega
    · have := nextFreeEntity_ge a (c + 1)
      omega
  · exact Nat.le_refl c
termination_by a.free.sup id + 1 - c
decreasing_by
  have h : (id c : Nat) ≤ a.free.sup id := Finset.le_sup (by assumption)
  simp only [id_eq] at h
  omega

lemma nextFreeEntity_le (a : EntityAllocator)
    (hinv : ∀ x ∈ a.free, x < a.next) (c : Nat) (hc : c ≤ a.next) :
    nextFreeEntity a c ≤ a.next := by
  rw [nextFreeEntity]
  split
  · split
    · exact Nat.le_refl _
    · next hmem _ =>
      exact nextFreeEntity_le a hinv (c + 1) (hinv c hmem)
  · exact hc
termination_by a.free.sup id + 1 - c
decreasing_by
  have h : (id c : Nat) ≤ a.free.sup id := Finset.le_sup (by assumption)
  simp only [id_eq] at h
  omega

lemma nextFreeEntity_not_free (a : EntityAllocator) (c : Nat) :
    nextFreeEntity a c = a.next ∨ nextFreeEntity a c ∉ a.free := by
  rw [nextFreeEntity]
  split
  · split
    · exact Or.inl rfl
    · exact nextFreeEntity_not_free a (c + 1)
  · next h => exact Or.inr h
termination_by a.free.sup id + 1 - c
decreasing_by
  have h : (id c : Nat) ≤ a.free.sup id := Finset.le_sup (by assumption)
  simp only [id_eq] at h
  omega

lemma nextFreeEntity_skipped (a : EntityAllocator) (c x : Nat)
    (hcx : c ≤ x) (hx : x < nextFreeEntity a c) : x ∈ a.free := by
  rw [nextFreeEntity] at hx
  split at hx
  · next hmem =>
    split at hx
    · next heq =>
      have : x = c := by omega
      rwa [this]
    · rcases Nat.eq_or_lt_of_le hcx with rfl | hlt
      · exact hmem
      · exact nextFreeEntity_skipped a (c + 1) x hlt hx
  · omega
termination_by a.free.sup id + 1 - c
decreasing_by
  have h : (id c : Nat) ≤ a.free.sup id := Finset.le_sup (by assumption)
  simp only [id_eq] at h
  omega

/-- Dropping a block of freed identities from the front of the scan window
does not change the filtered result. -/
lemma filter_range'_skip (a : EntityAllocator) :
    ∀ (n u : Nat), u + n ≤ a.next →
    (∀ x, u ≤ x → x < u + n → x ∈ a.free) →
    (List.range' u (a.next - u)).filter (fun x => decide (x ∉ a.free)) =
    (List.range' (u + n) (a.next - (u + n))).filter (fun x => decide (x ∉ a.free)) := by
  intro n
  induction n with
  | zero => intro u _ _; rfl
  | succ n ih =>
    intro u hle hfree
    have hu : u ∈ a.free := hfree u (Nat.le_refl u) (by omega)
    have hcnt : a.next - u = (a.next - (u + 1)) + 1 := by omega
    rw [hcnt, List.range'_succ, List.filter_cons]
    have hdrop : decide (u ∉ a.free) = false := by simp [hu]
    rw [hdrop]
    simp only [Bool.false_eq_true, if_false]
    have h2 := ih (u + 1) (by omega) (fun x hx1 hx2 => hfree x (by omega) (by omega))
    have h3 : u + 1 + n = u + (n + 1) := by omega
    rw [h3] at h2
    exact h2

lemma iterAux_spec (a : EntityAllocator) (hinv : ∀ x ∈ a.free, x < a.next) :
    ∀ (fuel c : Nat), c ≤ a.next → (c = a.next ∨ c ∉ a.free) →
    a.next - c ≤ fuel →
    iterAux a fuel c =
      (List.range' c (a.next - c)).filter (fun x => decide (x ∉ a.free)) := by
  intro fuel
  induction fuel with
  | zero =>
    intro c hc _ hfuel
    have : c = a.next := by omega
    simp [iterAux, this]
  | succ fuel ih =>
    intro c hc hdisj hfuel
    rcases Nat.eq_or_lt_of_le hc with rfl | hlt
    · simp [iterAux]
    · have hcfree : c ∉ a.free := by
        rcases hdisj with rfl | h
        · exact absurd rfl (Nat.ne_of_lt hlt)
        · exact h
      have hd1 : c + 1 ≤ nextFreeEntity a (c + 1) := nextFreeEntity_ge a (c + 1)
      have hd2 : nextFreeEntity a (c + 1) ≤ a.next :=
        nextFreeEntity_le a hinv (c + 1) hlt
      rw [iterAux]
      simp only [Nat.ne_of_lt hlt, if_false]
      rw [ih (nextFreeEntity a (c + 1)) hd2
        (by
          rcases nextFreeEntity_not_free a (c + 1) with h | h
          · exact Or.inl h
          · exact Or.inr h)
        (by omega)]
      have hcnt : a.next - c = (a.next - (c + 1)) + 1 := by omega
      rw [hcnt, List.range'_succ, List.filter_cons]
      have hkeep : decide (c ∉ a.free) = true := by simp [hcfree]
      rw [hkeep]
      simp only [if_true]
      have hskip := filter_range'_skip a (nextFreeEntity a (c + 1) - (c + 1)) (c + 1)
        (by omega)
        (fun x hx1 hx2 => nextFreeEntity_skipped a (c + 1) x hx1 (by omega))
      have harg : c + 1 + (nextFreeEntity a (c + 1) - (c + 1)) = nextFreeEntity a (c + 1) := by
        omega
      rw [harg] at hskip
      rw [hskip]

/-- **C3.** For every allocator state whose free set lies below `next` (the
invariant maintained when `free` is only applied to live identities), running
the live-entity iterator with at least `next` units of fuel yields exactly the
identities in `[0, next)` minus the free set, in strictly ascending order —
in particular the iteration needs no more than `next` yields, so it
terminates. -/
theorem iter_yields_live (a : EntityAllocator) (fuel : Nat)
    (hinv : ∀ x ∈ a.free, x < a.next) (hfuel : a.next ≤ fuel) :
    iterList a fuel =
      (List.range a.next).filter (fun x => decide (x ∉ a.free)) ∧
    (iterList a fuel).Pairwise (· < ·) := by
  have hstart0 : nextFreeEntity a 0 ≤ a.next :=
    nextFreeEntity_le a hinv 0 (Nat.zero_le _)
  have hmain := iterAux_spec a hinv fuel (nextFreeEntity a 0) hstart0
    (by
      rcases nextFreeEntity_not_free a 0 with h | h
      · exact Or.inl h
      · exact Or.inr h)
    (by omega)
  have hskip := filter_range'_skip a (nextFreeEntity a 0) 0
    (by omega)
    (fun x hx1 hx2 => nextFreeEntity_skipped a 0 x hx1 (by omega))
  simp only [Nat.zero_add, Nat.sub_zero] at hskip
  have hfilter : iterList a fuel =
      (List.range a.next).filter (fun x => decide (x ∉ a.free)) := by
    rw [iterList, hmain, List.range_eq_range', ← hskip]
  refine ⟨hfilter, ?_⟩
  rw [hfilter]
  exact (List.pairwise_lt_range a.next).sublist (List.filter_sublist _)

/-- Witness for `iter_yields_live`: the allocator `⟨5, {1, 3}⟩` (five issued
identities, two freed) iterates to `[0, 2, 4]`, strictly ascending. -/
theorem iter_yields_live_witness :
    iterList ⟨5, {1, 3}⟩ 5 =
      (List.range 5).filter (fun x => decide (x ∉ ({1, 3} : Finset Nat))) ∧
    (iterList ⟨5, {1, 3}⟩ 5).Pairwise (· < ·) :=
  iter_yields_live ⟨5, {1, 3}⟩ 5 (by decide) (by decide)

/-! ## Dense component storage (`src/storage.rs`, `BasicVecStorage<T>`)

Two parallel vectors: `datas` (component values) and `alloc` (allocated
flags).  The element type's `Default` bound is modelled with `Inhabited`.
`get`/`get_mut` panic in Rust when the slot is absent; they return `Option`
here (`none` = panic).  Rust's `Vec` indexing `self.alloc[pos]` is modelled
with `getD pos false`; the two coincide whenever `pos` is in bounds, which
the `SlotInv` invariant (maintained by every operation from the empty
storage) guarantees at each indexing site. -/

structure BasicVecStorage (T : Type) where
  datas : List T
  alloc : List Bool

/-- `Vec::resize_with(n, default)`: truncate to `n` or extend with `d`. -/
def resizeWith {α : Type} (l : List α) (n : Nat) (d : α) : List α :=
  if n ≤ l.length then l.take n else l ++ List.replicate (n - l.length) d

/-- `Default::default()` for `BasicVecStorage`: two empty vectors. -/
def BasicVecStorage.empty (T : Type) : BasicVecStorage T := ⟨[], []⟩

/-- `BasicVecStorage::alloc(entity)`: grow both vectors to `pos + 1` when
`pos >= datas.len()` (new `datas` slots default-filled, new flags `false`),
then set the allocated flag. -/
def BasicVecStorage.allocOp {T : Type} [Inhabited T]
    (s : BasicVecStorage T) (e : Nat) : BasicVecStorage T :=
  if s.datas.length ≤ e then
    { datas := resizeWith s.datas (e + 1) default,
      alloc := (resizeWith s.alloc (e + 1) false).set e true }
  else
    { s with alloc := s.alloc.set e true }

/-- `BasicVecStorage::free(entity)`: when the slot is in bounds and
allocated, scrub the value back to default and clear the flag. -/
def BasicVecStorage.freeOp {T : Type} [Inhabited T]
    (s : BasicVecStorage T) (e : Nat) : BasicVecStorage T :=
  if decide (e < s.datas.length) && s.alloc.getD e false then
    { datas := s.datas.set e default, alloc := s.alloc.set e false }
  else s

/-- `BasicVecStorage::has(entity)`. -/
def BasicVecStorage.hasOp {T : Type} (s : BasicVecStorage T) (e : Nat) : Bool :=
  decide (e < s.datas.length) && s.alloc.getD e false

/-- `BasicVecStorage::get(entity)`: `none` models the panic branch. -/
def BasicVecStorage.getOp {T : Type} (s : BasicVecStorage T) (e : Nat) : Option T :=
  if decide (e < s.datas.length) && s.alloc.getD e false then s.datas[e]? else none

/-- `BasicVecStorage::get_mut(entity)`: same guard as `get`. -/
def BasicVecStorage.getMutOp {T : Type} (s : BasicVecStorage T) (e : Nat) : Option T :=
  if decide (e < s.datas.length) && s.alloc.getD e false then s.datas[e]? else none

/-- Writing `v` through `get_mut(entity)` (`*storage.get_mut(e) = v`):
fails (`none`) exactly when `get_mut` panics, otherwise stores `v`. -/
def BasicVecStorage.writeOp {T : Type} [Inhabited T]
    (s : BasicVecStorage T) (e : Nat) (v : T) : Option (BasicVecStorage T) :=
  match s.getMutOp e with
  | some _ => some { s with datas := s.datas.set e v }
  | none => none

/-- State invariant of `BasicVecStorage`: the two vectors have equal length
(they are always resized together from empty), and every unallocated
in-bounds slot holds the default value (slots start default and `free`
scrubs back to default). -/
def BasicVecStorage.SlotInv {T : Type} [Inhabited T] (s : BasicVecStorage T) : Prop :=
  s.datas.length = s.alloc.length ∧
  ∀ i, i < s.datas.length → s.alloc.getD i false = false →
    s.datas.getD i default = default

namespace BasicVecStorage

variable {T : Type}

lemma resizeWith_length (l : List T) (n : Nat) (d : T) :
    (resizeWith l n d).length = n := by
  rw [resizeWith]
  split
  · next h => simp [Nat.min_eq_left h]
  · next h => simp; omega

lemma getD_set_self {α : Type} (l : List α) (i : Nat) (v d : α) (h : i < l.length) :
    (l.set i v).getD i d = v := by
  simp [List.getD_eq_getElem?_getD, List.getElem?_set_self, List.getElem?_eq_getElem, h]

lemma getD_set_ne {α : Type} (l : List α) (i j : Nat) (v d : α) (h : i ≠ j) :
    (l.set i v).getD j d = l.getD j d := by
  simp [List.getD_eq_getElem?_getD, List.getElem?_set_ne, h]

lemma getD_beyond {α : Type} (l : List α) (i : Nat) (d : α) (h : l.length ≤ i) :
    l.getD i d = d := by
  simp [List.getD_eq_getElem?_getD, List.getElem?_eq_none, h]

lemma getD_of_lt {α : Type} (l : List α) (i : Nat) (d : α) (h : i < l.length) :
    l.getD i d = l[i] := by
  simp [List.getD_eq_getElem?_getD, List.getElem?_eq_getElem, h]

lemma resizeWith_getD_lt {α : Type} (l : List α) (n i : Nat) (d d' : α)
    (hi : i < l.length) (hn : i < n) :
    (resizeWith l n d).getD i d' = l.getD i d' := by
  rw [resizeWith]
  split
  · rw [List.getD_eq_getElem?_getD, List.getElem?_take, if_pos hn,
      ← List.getD_eq_getElem?_getD]
  · rw [List.getD_eq_getElem?_getD, List.getElem?_append, if_pos hi,
      ← List.getD_eq_getElem?_getD]

lemma resizeWith_getD_ge {α : Type} (l : List α) (n i : Nat) (d d' : α)
    (hi : l.length ≤ i) (hn : i < n) :
    (resizeWith l n d).getD i d' = d := by
  rw [resizeWith]
  split
  · next h => omega
  · rw [List.getD_eq_getElem?_getD, List.getElem?_append_right hi]
    have : i - l.length < n - l.length := by omega
    simp [List.getElem?_replicate, this]

lemma hasOp_freeOp [Inhabited T] (s : BasicVecStorage T) (e : Nat) :
    (s.freeOp e).hasOp e = false := by
  rw [freeOp]
  split
  · next hcond =>
    simp only [hasOp]
    have hset : (s.alloc.set e false).getD e false = false := by
      rcases Nat.lt_or_ge e s.alloc.length with hlt | hge
      · exact getD_set_self _ _ _ _ hlt
      · exact getD_beyond _ _ _ (by simpa using hge)
    rw [hset, Bool.and_false]
  · next hcond =>
    rw [hasOp]
    simpa using hcond

lemma getOp_eq_none_iff (s : BasicVecStorage T) (e : Nat) :
    s.getOp e = none ↔ s.hasOp e = false := by
  rw [getOp, hasOp]
  split
  · next hcond =>
    have hl : e < s.datas.length := by
      rcases Bool.and_eq_true_iff.mp hcond with ⟨h1, _⟩
      exact of_decide_eq_true h1
    rw [List.getElem?_eq_getElem hl, hcond]
    simp
  · next hcond =>
    simp only [Bool.not_eq_true] at hcond
    rw [hcond]
    simp

lemma getOp_of_hasOp [Inhabited T] (s : BasicVecStorage T) (e : Nat)
    (h : s.hasOp e = true) :
    s.getOp e = some (s.datas.getD e default) := by
  rw [hasOp] at h
  have hl : e < s.datas.length := by
    rcases Bool.and_eq_true_iff.mp h with ⟨h1, _⟩
    exact of_decide_eq_true h1
  rw [getOp, if_pos h, List.getElem?_eq_getElem hl]
  congr 1
  rw [List.getD_eq_getElem?_getD, List.getElem?_eq_getElem hl]
  rfl

lemma getD_true_lt (l : List Bool) (i : Nat) (h : l.getD i false = true) :
    i < l.length := by
  by_contra hge
  rw [getD_beyond _ _ _ (by omega)] at h
  exact Bool.false_ne_true h

lemma hasOp_allocOp [Inhabited T] (s : BasicVecStorage T) (e : Nat)
    (hlen : s.datas.length = s.alloc.length) :
    (s.allocOp e).hasOp e = true := by
  rw [allocOp]
  split
  · next hge =>
    show (decide (e < (resizeWith s.datas (e + 1) default).length) &&
      ((resizeWith s.alloc (e + 1) false).set e true).getD e false) = true
    have h2 : ((resizeWith s.alloc (e + 1) false).set e true).getD e false = true :=
      getD_set_self _ _ _ _ (by rw [resizeWith_length]; omega)
    rw [h2, Bool.and_true, decide_eq_true_eq, resizeWith_length]
    omega
  · next hlt =>
    show (decide (e < s.datas.length) && (s.alloc.set e true).getD e false) = true
    have h2 : (s.alloc.set e true).getD e false = true :=
      getD_set_self _ _ _ _ (by omega)
    rw [h2, Bool.and_true, decide_eq_true_eq]
    omega

lemma getOp_allocOp_default [Inhabited T] (s : BasicVecStorage T) (e : Nat)
    (hinv : s.SlotInv) (h : s.hasOp e = false) :
    (s.allocOp e).getOp e = some default := by
  rw [getOp_of_hasOp _ _ (hasOp_allocOp s e hinv.1)]
  congr 1
  rw [allocOp]
  split
  · next hge =>
    exact resizeWith_getD_ge _ _ _ _ _ hge (by omega)
  · next hlt =>
    have h1 : e < s.datas.length := by omega
    have h2 : s.alloc.getD e false = false := by
      rw [hasOp] at h
      simpa [h1] using h
    exact hinv.2 e h1 h2

lemma getOp_allocOp_of_has [Inhabited T] (s : BasicVecStorage T) (e : Nat)
    (h : s.hasOp e = true) :
    (s.allocOp e).getOp e = s.getOp e ∧ (s.allocOp e).hasOp e = true := by
  rw [hasOp] at h
  obtain ⟨h1, h2⟩ := Bool.and_eq_true_iff.mp h
  have hl : e < s.datas.length := of_decide_eq_true h1
  have ha : e < s.alloc.length := getD_true_lt _ _ h2
  have hbranch : s.allocOp e = { s with alloc := s.alloc.set e true } := by
    rw [allocOp, if_neg (by omega)]
  have hset : (s.alloc.set e true).getD e false = true := getD_set_self _ _ _ _ ha
  constructor
  · rw [hbranch]
    show (if (decide (e < s.datas.length) && (s.alloc.set e true).getD e false) = true
      then s.datas[e]? else none) = s.getOp e
    rw [getOp, hset, h2]
  · rw [hbranch]
    show (decide (e < s.datas.length) && (s.alloc.set e true).getD e false) = true
    rw [hset, Bool.and_true, decide_eq_true_eq]
    exact hl

lemma getMutOp_eq (s : BasicVecStorage T) (e : Nat) : s.getMutOp e = s.getOp e := rfl

lemma writeOp_some_iff [Inhabited T] (s : BasicVecStorage T) (e : Nat) (v : T) :
    (∃ s', s.writeOp e v = some s') ↔ s.hasOp e = true := by
  rw [writeOp]
  constructor
  · rintro ⟨s', hs'⟩
    by_contra hne
    have hfalse : s.hasOp e = false := by
      cases hb : s.hasOp e
      · rfl
      · exact absurd hb hne
    have hnone : s.getMutOp e = none := by
      rw [getMutOp_eq]
      exact (getOp_eq_none_iff s e).mpr hfalse
    rw [hnone] at hs'
    exact Option.noConfusion hs'
  · intro h
    have hsome : s.getMutOp e = some (s.datas.getD e default) := by
      rw [getMutOp_eq]
      exact getOp_of_hasOp s e h
    rw [hsome]
    exact ⟨_, rfl⟩

lemma writeOp_getOp [Inhabited T] (s s' : BasicVecStorage T) (e : Nat) (v : T)
    (h : s.writeOp e v = some s') : s'.getOp e = some v := by
  rw [writeOp] at h
  cases hm : s.getMutOp e with
  | none => rw [hm] at h; exact Option.noConfusion h
  | some w =>
    rw [hm] at h
    have hs' : s' = { s with datas := s.datas.set e v } := (Option.some.inj h).symm
    have hhas : s.hasOp e = true := by
      by_contra hne
      have hfalse : s.hasOp e = false := by
        cases hb : s.hasOp e
        · rfl
        · exact absurd hb hne
      have hnone : s.getMutOp e = none := by
        rw [getMutOp_eq]
        exact (getOp_eq_none_iff s e).mpr hfalse
      rw [hnone] at hm
      exact Option.noConfusion hm
    rw [hasOp] at hhas
    obtain ⟨h1, h2⟩ := Bool.and_eq_true_iff.mp hhas
    have hl : e < s.datas.length := of_decide_eq_true h1
    have hhas' : s'.hasOp e = true := by
      rw [hs']
      show (decide (e < (s.datas.set e v).length) && s.alloc.getD e false) = true
      rw [List.length_set, h2, Bool.and_true, decide_eq_true_eq]
      exact hl
    rw [getOp_of_hasOp _ _ hhas', hs']
    show some ((s.datas.set e v).getD e default) = some v
    rw [getD_set_self _ _ _ _ hl]

lemma slotInv_empty (T : Type) [Inhabited T] : (BasicVecStorage.empty T).SlotInv := by
  constructor
  · rfl
  · intro i hi
    simp [BasicVecStorage.empty] at hi

lemma slotInv_allocOp [Inhabited T] (s : BasicVecStorage T) (e : Nat)
    (hinv : s.SlotInv) : (s.allocOp e).SlotInv := by
  rw [allocOp]
  split
  · next hge =>
    constructor
    · simp [resizeWith_length]
    · intro i hi hflag
      simp only [resizeWith_length] at hi
      rcases eq_or_ne i e with rfl | hne
      · rw [getD_set_self _ _ _ _ (by rw [resizeWith_length]; omega)] at hflag
        exact absurd hflag (by simp)
      · rw [getD_set_ne _ _ _ _ _ (Ne.symm hne)] at hflag
        rcases Nat.lt_or_ge i s.datas.length with hld | hld
        · rw [resizeWith_getD_lt _ _ _ _ _ hld hi]
          rw [resizeWith_getD_lt _ _ _ _ _ (hinv.1 ▸ hld) hi] at hflag
          exact hinv.2 i hld hflag
        · exact resizeWith_getD_ge _ _ _ _ _ hld hi
  · next hlt =>
    constructor
    · simpa using hinv.1
    · intro i hi hflag
      simp only at hi ⊢
      rcases eq_or_ne i e with rfl | hne
      · rcases Nat.lt_or_ge i s.alloc.length with hla | hla
        · rw [getD_set_self _ _ _ _ hla] at hflag
          exact absurd hflag (by simp)
        · rw [List.set_eq_of_length_le hla] at hflag
          exact hinv.2 _ hi hflag
      · rw [getD_set_ne _ _ _ _ _ (Ne.symm hne)] at hflag
        exact hinv.2 i hi hflag

lemma slotInv_freeOp [Inhabited T] (s : BasicVecStorage T) (e : Nat)
    (hinv : s.SlotInv) : (s.freeOp e).SlotInv := by
  rw [freeOp]
  split
  · next hcond =>
    obtain ⟨h1, h2⟩ := Bool.and_eq_true_iff.mp hcond
    have hl : e < s.datas.length := of_decide_eq_true h1
    constructor
    · simpa using hinv.1
    · intro i hi hflag
      simp only [List.length_set] at hi
      rcases eq_or_ne i e with rfl | hne
      · exact getD_set_self _ _ _ _ hl
      · rw [getD_set_ne _ _ _ _ _ (Ne.symm hne)]
        rw [getD_set_ne _ _ _ _ _ (Ne.symm hne)] at hflag
        exact hinv.2 i hi hflag
  · exact hinv

lemma slotInv_writeOp [Inhabited T] (s s' : BasicVecStorage T) (e : Nat) (v : T)
    (h : s.writeOp e v = some s') (hinv : s.SlotInv) : s'.SlotInv := by
  rw [writeOp] at h
  cases hm : s.getMutOp e with
  | none => rw [hm] at h; exact Option.noConfusion h
  | some w =>
    rw [hm] at h
    have hs' : s' = { s with datas := s.datas.set e v } := (Option.some.inj h).symm
    have hflagE : s.alloc.getD e false = true := by
      by_contra hne
      have hf : s.alloc.getD e false = false := by
        cases hb : s.alloc.getD e false
        · rfl
        · exact absurd hb hne
      have : s.getMutOp e = none := by
        rw [getMutOp, hf, Bool.and_false, if_neg (by simp)]
      rw [this] at hm
      exact Option.noConfusion hm
    rw [hs']
    constructor
    · simpa using hinv.1
    · intro i hi hflag
      simp only [List.length_set] at hi
      rcases eq_or_ne i e with rfl | hne
      · simp only at hflag
        rw [hflagE] at hflag
        exact absurd hflag (by simp)
      · simp only
        rw [getD_set_ne _ _ _ _ _ (Ne.symm hne)]
        exact hinv.2 i hi hflag

end BasicVecStorage

open BasicVecStorage in
/-- **C4.** For a `BasicVecStorage` satisfying its state invariant (two
vectors of equal length, unallocated in-bounds slots scrubbed to default —
true of every storage built through the API, by `slotInv_empty`,
`slotInv_allocOp`, `slotInv_freeOp`, `slotInv_writeOp`): after `alloc(e)` on
an absent `e`, `get(e)` returns the default value; a write through
`get_mut(e)` is visible to a subsequent `get(e)`; `alloc(e)` on an
already-allocated `e` re-marks it allocated without changing the stored
value; and `free(e)` makes `has(e)` false while a later `alloc(e)` then
`get(e)` returns the default again — nothing leaks across the free/alloc
cycle. -/
theorem storage_round_trip {T : Type} [Inhabited T]
    (s : BasicVecStorage T) (e : Nat) (v : T) (hinv : s.SlotInv) :
    (s.hasOp e = false → (s.allocOp e).getOp e = some default) ∧
    (∀ s', s.writeOp e v = some s' → s'.getOp e = some v) ∧
    (s.hasOp e = true →
      (s.allocOp e).getOp e = s.getOp e ∧ (s.allocOp e).hasOp e = true) ∧
    (s.freeOp e).hasOp e = false ∧
    ((s.freeOp e).allocOp e).getOp e = some default :=
  ⟨fun h => getOp_allocOp_default s e hinv h,
   fun s' h => writeOp_getOp s s' e v h,
   fun h => getOp_allocOp_of_has s e h,
   hasOp_freeOp s e,
   getOp_allocOp_default _ e (slotInv_freeOp s e hinv) (hasOp_freeOp s e)⟩

open BasicVecStorage in
/-- Witness for `storage_round_trip`, at `T = Nat`: allocating entity `0` in
the empty storage then reading gives `some 0`; writing `7` into `⟨[5], [true]⟩`
gives a storage reading `some 7`; re-allocating the allocated slot keeps `5`;
freeing clears `has` and a free/alloc cycle reads the default again. -/
theorem storage_round_trip_witness :
    ((BasicVecStorage.empty Nat).allocOp 0).getOp 0 = some 0 ∧
    (⟨[7], [true]⟩ : BasicVecStorage Nat).getOp 0 = some 7 ∧
    ((⟨[5], [true]⟩ : BasicVecStorage Nat).allocOp 0).getOp 0 =
      (⟨[5], [true]⟩ : BasicVecStorage Nat).getOp 0 ∧
    ((⟨[5], [true]⟩ : BasicVecStorage Nat).allocOp 0).hasOp 0 = true ∧
    ((⟨[5], [true]⟩ : BasicVecStorage Nat).freeOp 0).hasOp 0 = false ∧
    (((⟨[5], [true]⟩ : BasicVecStorage Nat).freeOp 0).allocOp 0).getOp 0 = some 0 := by
  have hinv0 : (BasicVecStorage.empty Nat).SlotInv := slotInv_empty Nat
  have hinv1 : (⟨[5], [true]⟩ : BasicVecStorage Nat).SlotInv := by
    refine ⟨rfl, fun i hi hf => ?_⟩
    have hi0 : i = 0 := by
      simp only [List.length_cons, List.length_nil] at hi
      omega
    subst hi0
    exact absurd hf (by decide)
  have h1 := (storage_round_trip (BasicVecStorage.empty Nat) 0 0 hinv0).1 (by decide)
  have h2 := (storage_round_trip (⟨[5], [true]⟩ : BasicVecStorage Nat) 0 7 hinv1).2.1
    ⟨[7], [true]⟩ rfl
  have h3 := (storage_round_trip (⟨[5], [true]⟩ : BasicVecStorage Nat) 0 7 hinv1).2.2.1
    (by decide)
  have h4 := (storage_round_trip (⟨[5], [true]⟩ : BasicVecStorage Nat) 0 7 hinv1).2.2.2
  exact ⟨h1, h2, h3.1, h3.2, h4.1, h4.2⟩

open BasicVecStorage in
/-- **C9.** `BasicVecStorage::get` and `get_mut` panic (modelled `none`)
exactly when `has(e)` is false; when `has(e)` is true both return the stored
value; `has(e)` is false for any identity at or beyond the backing length and
for a freed slot. -/
theorem get_fault_iff_absent {T : Type} [Inhabited T]
    (s : BasicVecStorage T) (e : Nat) :
    (s.getOp e = none ↔ s.hasOp e = false) ∧
    (s.getMutOp e = none ↔ s.hasOp e = false) ∧
    (s.hasOp e = true →
      s.getOp e = some (s.datas.getD e default) ∧
      s.getMutOp e = some (s.datas.getD e default)) ∧
    (s.datas.length ≤ e → s.hasOp e = false) ∧
    (s.freeOp e).hasOp e = false := by
  refine ⟨getOp_eq_none_iff s e, ?_, fun h => ⟨getOp_of_hasOp s e h, ?_⟩,
    fun h => ?_, hasOp_freeOp s e⟩
  · rw [getMutOp_eq]
    exact getOp_eq_none_iff s e
  · rw [getMutOp_eq]
    exact getOp_of_hasOp s e h
  · rw [hasOp, decide_eq_false (by omega), Bool.false_and]

open BasicVecStorage in
/-- Witness for `get_fault_iff_absent`, at `T = Nat`, storage `⟨[3], [true]⟩`:
reads at the allocated slot `0` succeed with the stored value, slot `1` is
beyond the backing length so `has` is false, and freeing slot `0` clears it. -/
theorem get_fault_iff_absent_witness :
    ((⟨[3], [true]⟩ : BasicVecStorage Nat).getOp 0 = some 3 ∧
     (⟨[3], [true]⟩ : BasicVecStorage Nat).getMutOp 0 = some 3) ∧
    (⟨[3], [true]⟩ : BasicVecStorage Nat).hasOp 1 = false ∧
    ((⟨[3], [true]⟩ : BasicVecStorage Nat).freeOp 0).hasOp 0 = false := by
  have h := get_fault_iff_absent (⟨[3], [true]⟩ : BasicVecStorage Nat) 0
  have h1 := get_fault_iff_absent (⟨[3], [true]⟩ : BasicVecStorage Nat) 1
  exact ⟨h.2.2.1 (by decide), h1.2.2.2.1 (by decide), h.2.2.2.2⟩

/-! ## Entity manager (`src/entity_manager.rs`)

`create_entity_manager_component!` generates a struct with one
`BasicVecStorage` field per registered component type, whose
`EntityManagerComponent::free` calls `free(entity)` on every field.  The
generated struct is modelled as a heterogeneous list of storages (one entry
per registered component type, any number of them).  `EntityManager` owns
that list plus the identity allocator. -/

/-- One registered component type: its value type, the `Default` bound, and
its `BasicVecStorage` instance. -/
def Reg : Type 1 := (T : Type) × Inhabited T × BasicVecStorage T

/-- The generated `EntityManagerComponent::free(entity)`: free the entity's
slot in every registered storage. -/
def freeAllComponents (regs : List Reg) (e : Nat) : List Reg :=
  regs.map fun r => ⟨r.1, r.2.1, @BasicVecStorage.freeOp r.1 r.2.1 r.2.2 e⟩

structure EntityManager where
  components : List Reg
  allocator : EntityAllocator

/-- `EntityManager::delete_entity`: free the identity in the allocator and
every registered storage. -/
def EntityManager.deleteEntity (m : EntityManager) (e : Nat) : EntityManager :=
  { allocator := m.allocator.freeEntity e,
    components := freeAllComponents m.components e }

/-- `EntityManager::has_component::<T>` for the `i`-th registered type. -/
def EntityManager.hasComponent (m : EntityManager) (i : Nat) (e : Nat) : Bool :=
  match m.components[i]? with
  | some r => r.2.2.hasOp e
  | none => false

/-- **C5.** After `delete_entity(e)`, `has_component(e)` is false for every
registered component type, `e` is in the allocator's free set, and `e` can be
returned again by a `create_entity` (i.e. allocator `alloc`) step. -/
theorem delete_entity_complete (m : EntityManager) (e i : Nat)
    (hi : i < m.components.length) :
    (m.deleteEntity e).hasComponent i e = false ∧
    e ∈ (m.deleteEntity e).allocator.free ∧
    ∃ a', AllocStep (m.deleteEntity e).allocator e a' := by
  refine ⟨?_, ?_, ?_⟩
  · rw [EntityManager.hasComponent]
    have hmap : (m.deleteEntity e).components[i]? =
        (m.components[i]?).map
          (fun r => (⟨r.1, r.2.1, @BasicVecStorage.freeOp r.1 r.2.1 r.2.2 e⟩ : Reg)) := by
      rw [EntityManager.deleteEntity]
      exact List.getElem?_map _ _ _
    rw [hmap, List.getElem?_eq_getElem hi]
    exact @BasicVecStorage.hasOp_freeOp (m.components[i]).1 (m.components[i]).2.1
      (m.components[i]).2.2 e
  · exact Finset.mem_insert_self e m.allocator.free
  · exact ⟨_, AllocStep.fromFree (Finset.mem_insert_self e m.allocator.free)⟩

/-- Witness for `delete_entity_complete`: a manager with one registered `Nat`
component storage holding entity `0`; deleting entity `0` clears the
component, frees the identity and allows its re-allocation. -/
theorem delete_entity_complete_witness :
    (EntityManager.deleteEntity ⟨[⟨Nat, ⟨0⟩, ⟨[4], [true]⟩⟩], ⟨1, ∅⟩⟩ 0).hasComponent 0 0
      = false ∧
    0 ∈ (EntityManager.deleteEntity ⟨[⟨Nat, ⟨0⟩, ⟨[4], [true]⟩⟩], ⟨1, ∅⟩⟩ 0).allocator.free ∧
    ∃ a', AllocStep
      (EntityManager.deleteEntity ⟨[⟨Nat, ⟨0⟩, ⟨[4], [true]⟩⟩], ⟨1, ∅⟩⟩ 0).allocator 0 a' :=
  delete_entity_complete ⟨[⟨Nat, ⟨0⟩, ⟨[4], [true]⟩⟩], ⟨1, ∅⟩⟩ 0 0
    (by simp [List.length_cons])

/-! ## Query engine (`src/entity_manager.rs`, `Query`)

A query is an ordered list of boxed filter closures over (manager, entity).
A filter returning `none` models a filter body that panics; `check`
propagates it.  `check` mirrors the Rust loop: `ret` starts `true`, each
filter's result overwrites `ret`, and the loop breaks on the first `false`. -/

/-- The `ret`-accumulating filter loop inside `Query::check`: `ret` is
overwritten by each filter's result and the loop breaks on the first `false`
(`none` models a filter body that panics). -/
def checkLoop {M : Type u} (m : M) (e : Nat) :
    List (M → Nat → Option Bool) → Option Bool → Option Bool
  | [], ret => ret
  | f :: fs, _ =>
    match f m e with
    | none => none
    | some true => checkLoop m e fs (some true)
    | some false => some false

structure Query (M : Type u) where
  filters : List (M → Nat → Option Bool)

/-- `Query::check(entity_manager, entity)`. -/
def Query.check {M : Type u} (q : Query M) (m : M) (e : Nat) : Option Bool :=
  checkLoop m e q.filters (some true)

/-- The filter pushed by `Query::check_component_by::<C>(f)`: if the entity
has the component, apply the predicate to `get_component` (a panic there
propagates as `none`), otherwise return `false`. -/
def checkComponentByFilter {M : Type u} {T : Type}
    (access : M → BasicVecStorage T) (p : T → Bool) : M → Nat → Option Bool :=
  fun m e =>
    if (access m).hasOp e then ((access m).getOp e).map (fun c => p c)
    else some false

lemma checkLoop_all {M : Type u} (m : M) (e : Nat)
    (fs : List (M → Nat → Option Bool))
    (hall : ∀ f ∈ fs, ∃ b, f m e = some b) :
    checkLoop m e fs (some true) = some (fs.all (fun f => (f m e).getD false)) := by
  induction fs with
  | nil => rfl
  | cons f fs ih =>
    obtain ⟨b, hb⟩ := hall f (List.mem_cons_self f fs)
    cases b with
    | true =>
      have hstep : checkLoop m e (f :: fs) (some true) = checkLoop m e fs (some true) := by
        rw [checkLoop, hb]
      rw [hstep, ih (fun g hg => hall g (List.mem_cons_of_mem f hg))]
      simp [List.all_cons, hb]
    | false =>
      have hstep : checkLoop m e (f :: fs) (some true) = some false := by
        rw [checkLoop, hb]
      rw [hstep]
      simp [List.all_cons, hb]

lemma checkLoop_first_false {M : Type u} (m : M) (e : Nat)
    (fs₁ fs₂ : List (M → Nat → Option Bool)) (f : M → Nat → Option Bool)
    (htrue : ∀ g ∈ fs₁, g m e = some true) (hf : f m e = some false) :
    checkLoop m e (fs₁ ++ f :: fs₂) (some true) = some false := by
  induction fs₁ with
  | nil =>
    rw [List.nil_append, checkLoop, hf]
  | cons g gs ih =>
    have hstep : checkLoop m e ((g :: gs) ++ f :: fs₂) (some true) =
        checkLoop m e (gs ++ f :: fs₂) (some true) := by
      rw [List.cons_append, checkLoop, htrue g (List.mem_cons_self g gs)]
    rw [hstep]
    exact ih (fun g' hg' => htrue g' (List.mem_cons_of_mem g hg'))

/-- **C6.** `Query::check` is the left-to-right conjunction of the filters,
stopping at the first `false`: an empty filter list matches every entity; when
every filter evaluates cleanly the result is their conjunction in order; once
a filter returns `false` the overall result is `false` no matter what the
later filters are — even filters that would panic are never evaluated; and
the `check_component_by` filter fails closed: it returns `false` (and never
panics) when the component is absent, and applies the predicate exactly when
the component is present. -/
theorem query_check_spec {M : Type u} (m : M) (e : Nat) :
    (Query.check ⟨[]⟩ m e = some true) ∧
    (∀ fs : List (M → Nat → Option Bool),
      (∀ f ∈ fs, ∃ b, f m e = some b) →
      Query.check ⟨fs⟩ m e = some (fs.all (fun f => (f m e).getD false))) ∧
    (∀ (fs₁ fs₂ : List (M → Nat → Option Bool)) (f : M → Nat → Option Bool),
      (∀ g ∈ fs₁, g m e = some true) → f m e = some false →
      Query.check ⟨fs₁ ++ f :: fs₂⟩ m e = some false) ∧
    (∀ (T : Type) (access : M → BasicVecStorage T) (p : T → Bool),
      ((access m).hasOp e = false → checkComponentByFilter access p m e = some false) ∧
      (∀ v, (access m).getOp e = some v →
        checkComponentByFilter access p m e = some (p v)) ∧
      (∀ inst : Inhabited T, checkComponentByFilter access p m e ≠ none)) := by
  refine ⟨rfl, fun fs hall => checkLoop_all m e fs hall,
    fun fs₁ fs₂ f h1 h2 => checkLoop_first_false m e fs₁ fs₂ f h1 h2,
    fun T access p => ⟨?_, ?_, ?_⟩⟩
  · intro h
    rw [checkComponentByFilter, if_neg (by simp [h])]
  · intro v hv
    have hhas : (access m).hasOp e = true := by
      cases hb : (access m).hasOp e
      · rw [(BasicVecStorage.getOp_eq_none_iff _ e).mpr hb] at hv
        exact Option.noConfusion hv
      · rfl
    rw [checkComponentByFilter, if_pos hhas, hv]
    rfl
  · intro inst
    rw [checkComponentByFilter]
    split
    · next hhas =>
      rw [@BasicVecStorage.getOp_of_hasOp T inst _ e hhas]
      simp
    · simp

/-- Witness for `query_check_spec`, with the manager being a single
`BasicVecStorage Nat` (accessed by `id`) holding value `4` for entity `0`:
the empty query matches, a clean filter list folds to its conjunction, a
`false` filter short-circuits past a panicking filter, and the
`check_component_by` filter applies the predicate to the stored value. -/
theorem query_check_spec_witness :
    (Query.check ⟨[]⟩ (⟨[4], [true]⟩ : BasicVecStorage Nat) 0 = some true) ∧
    (Query.check ⟨[fun _ _ => some true]⟩ (⟨[4], [true]⟩ : BasicVecStorage Nat) 0 =
      some ([fun _ _ => some true].all
        (fun f => (f (⟨[4], [true]⟩ : BasicVecStorage Nat) 0).getD false))) ∧
    (Query.check ⟨[fun _ _ => some false, fun _ _ => none]⟩
      (⟨[4], [true]⟩ : BasicVecStorage Nat) 0 = some false) ∧
    (checkComponentByFilter id (fun c => decide (c > 3))
      (⟨[4], [true]⟩ : BasicVecStorage Nat) 0 = some true) := by
  have h := query_check_spec (⟨[4], [true]⟩ : BasicVecStorage Nat) 0
  refine ⟨h.1, h.2.1 [fun _ _ => some true] ?_, ?_, ?_⟩
  · intro f hf
    rw [List.mem_singleton] at hf
    exact ⟨true, by rw [hf]⟩
  · exact h.2.2.1 [] [fun _ _ => none] (fun _ _ => some false)
      (fun g hg => absurd hg (List.not_mem_nil g)) rfl
  · have := (h.2.2.2 Nat id (fun c => decide (c > 3))).2.1 4 (by decide)
    simpa using this

/-! ## Deferred event dispatcher (`src/event_dispatcher.rs`)

`EventDispatcher` holds a FIFO `pendings` queue of boxed closures and the
adapters.  `connect`, `disconnect` and `push` each enqueue one closure;
`dispatch()` pops and runs closures until the queue is empty.  The model
uses one event type `E` and one adapter whose subscriber list holds handler
identifiers (`Rc` pointer identity becomes a `Nat` id).  What a handler's
`on_event` does to the dispatcher (its own `push`/`connect`/`disconnect`
calls, which all merely enqueue) is captured by an environment
`env : Nat → E → List (PendingOp E)` giving the operations handler `h`
enqueues when invoked with an event; handler invocations are logged in
`invoked`.  `dispatch` is a loop that need not terminate (a handler may push
forever), so it is modelled as the inductive big-step relation
`DispatchRel`. -/

/-- A queued closure: the three kinds of pending action. -/
inductive PendingOp (E : Type) where
  | connect (h : Nat)
  | disconnect (h : Nat)
  | push (ev : E)
deriving DecidableEq

/-- Dispatcher state: the pending FIFO queue, the adapter's subscriber list
(in connection order), and the log of handler invocations. -/
structure EDState (E : Type) where
  pendings : List (PendingOp E)
  handlers : List Nat
  invoked : List (Nat × E)
deriving DecidableEq

/-- Executing one popped closure against the current state:
`connect` appends to the subscriber list (`Adapter::connect`),
`disconnect` removes the first identity-match (`Adapter::disconnect`),
`push` invokes every current subscriber in list order (`Adapter::invoke`),
each invocation appending the handler's own enqueued operations to the
back of the pending queue. -/
def execOp {E : Type} (env : Nat → E → List (PendingOp E))
    (op : PendingOp E) (s : EDState E) : EDState E :=
  match op with
  | .connect h => { s with handlers := s.handlers ++ [h] }
  | .disconnect h => { s with handlers := s.handlers.erase h }
  | .push ev =>
    { s with
      invoked := s.invoked ++ s.handlers.map (fun h => (h, ev)),
      pendings := s.pendings ++ (s.handlers.map (fun h => env h ev)).flatten }

/-- `EventDispatcher::push(event)`: enqueue only. -/
def pushEvent {E : Type} (s : EDState E) (ev : E) : EDState E :=
  { s with pendings := s.pendings ++ [.push ev] }

/-- `EventDispatcher::connect(handler)`: enqueue only. -/
def connectHandler {E : Type} (s : EDState E) (h : Nat) : EDState E :=
  { s with pendings := s.pendings ++ [.connect h] }

/-- `EventDispatcher::disconnect(handler)`: enqueue only. -/
def disconnectHandler {E : Type} (s : EDState E) (h : Nat) : EDState E :=
  { s with pendings := s.pendings ++ [.disconnect h] }

/-- `EventDispatcher::dispatch()`: `while let Some(event) = pop front { run }`.
`DispatchRel env s s' ops` holds when the loop started in `s` terminates in
`s'` having executed the popped operations `ops` in order, each against the
state current at the moment it was popped. -/
inductive DispatchRel {E : Type} (env : Nat → E → List (PendingOp E)) :
    EDState E → EDState E → List (PendingOp E) → Prop
  | done {s : EDState E} : s.pendings = [] → DispatchRel env s s []
  | step {s s' : EDState E} {op : PendingOp E} {rest ops : List (PendingOp E)} :
      s.pendings = op :: rest →
      DispatchRel env (execOp env op { s with pendings := rest }) s' ops →
      DispatchRel env s s' (op :: ops)

lemma execOp_pendings_append {E : Type} (env : Nat → E → List (PendingOp E))
    (op : PendingOp E) (s : EDState E) :
    ∃ u, (execOp env op s).pendings = s.pendings ++ u := by
  cases op with
  | connect h => exact ⟨[], by simp [execOp]⟩
  | disconnect h => exact ⟨[], by simp [execOp]⟩
  | push ev => exact ⟨_, rfl⟩

lemma dispatchRel_drains {E : Type} (env : Nat → E → List (PendingOp E))
    {s s' : EDState E} {ops : List (PendingOp E)}
    (h : DispatchRel env s s' ops) :
    s'.pendings = [] ∧ ∃ t, s.pendings ++ t = ops := by
  induction h with
  | done hnil => exact ⟨hnil, [], by rw [hnil]; rfl⟩
  | step hp _ ih =>
    rename_i s s' op rest ops hrest
    obtain ⟨hdone, t, ht⟩ := ih
    refine ⟨hdone, ?_⟩
    obtain ⟨u, hu⟩ := execOp_pendings_append env op { s with pendings := rest }
    have hu' : (execOp env op { s with pendings := rest }).pendings = rest ++ u := hu
    rw [hu'] at ht
    refine ⟨u ++ t, ?_⟩
    rw [hp, List.cons_append, ← List.append_assoc, ht]

/-- **C7.** `connect`, `disconnect` and `push` on the dispatcher touch no
adapter subscriber list and invoke no handler: each only appends one closure
to the pending FIFO queue.  `dispatch()` pops and executes queued actions
until the queue is empty, each action applied to the adapters as they are
when it is popped (built into `DispatchRel`/`execOp`); every action queued
when `dispatch()` starts is executed, in submission order, before any action
enqueued while draining — and those later enqueues (e.g. a handler's `push`)
are also executed before the same `dispatch()` call returns, since it only
stops on an empty queue. -/
theorem dispatcher_fifo_spec {E : Type} (env : Nat → E → List (PendingOp E)) :
    (∀ (s : EDState E) (ev : E),
      (pushEvent s ev).handlers = s.handlers ∧
      (pushEvent s ev).invoked = s.invoked ∧
      (pushEvent s ev).pendings = s.pendings ++ [PendingOp.push ev]) ∧
    (∀ (s : EDState E) (h : Nat),
      (connectHandler s h).handlers = s.handlers ∧
      (connectHandler s h).invoked = s.invoked ∧
      (connectHandler s h).pendings = s.pendings ++ [PendingOp.connect h]) ∧
    (∀ (s : EDState E) (h : Nat),
      (disconnectHandler s h).handlers = s.handlers ∧
      (disconnectHandler s h).invoked = s.invoked ∧
      (disconnectHandler s h).pendings = s.pendings ++ [PendingOp.disconnect h]) ∧
    (∀ (s s' : EDState E) (ops : List (PendingOp E)),
      DispatchRel env s s' ops →
      s'.pendings = [] ∧ ∃ t, s.pendings ++ t = ops) :=
  ⟨fun s ev => ⟨rfl, rfl, rfl⟩,
   fun s h => ⟨rfl, rfl, rfl⟩,
   fun s h => ⟨rfl, rfl, rfl⟩,
   fun s s' ops h => dispatchRel_drains env h⟩

/-- Witness for `dispatcher_fifo_spec`: with one subscribed handler `1` that
enqueues nothing, pushing event `7` only lengthens the queue, and a dispatch
of the queue `[push 7]` drains it completely, the original queue being a
prefix of the executed actions. -/
theorem dispatcher_fifo_spec_witness :
    ((pushEvent (⟨[], [1], []⟩ : EDState Nat) 7).handlers = [1] ∧
     (pushEvent (⟨[], [1], []⟩ : EDState Nat) 7).invoked = [] ∧
     (pushEvent (⟨[], [1], []⟩ : EDState Nat) 7).pendings = [PendingOp.push 7]) ∧
    ((execOp (fun _ _ => []) (PendingOp.push 7)
        (⟨[], [1], []⟩ : EDState Nat)).pendings = [] ∧
     ∃ t, ([PendingOp.push 7] : List (PendingOp Nat)) ++ t = [PendingOp.push 7]) := by
  have henq := (dispatcher_fifo_spec (fun _ _ => ([] : List (PendingOp Nat)))).1
    ⟨[], [1], []⟩ 7
  have hinner : DispatchRel (fun _ _ => ([] : List (PendingOp Nat)))
      (execOp (fun _ _ => []) (PendingOp.push 7) ⟨[], [1], []⟩)
      (execOp (fun _ _ => []) (PendingOp.push 7) ⟨[], [1], []⟩) [] :=
    DispatchRel.done (by simp [execOp])
  have hrel : DispatchRel (fun _ _ => ([] : List (PendingOp Nat)))
      ⟨[PendingOp.push 7], [1], []⟩
      (execOp (fun _ _ => []) (PendingOp.push 7) ⟨[], [1], []⟩) [PendingOp.push 7] :=
    DispatchRel.step rfl hinner
  have hdrain := (dispatcher_fifo_spec (fun _ _ => ([] : List (PendingOp Nat)))).2.2.2
    ⟨[PendingOp.push 7], [1], []⟩ _ _ hrel
  exact ⟨⟨henq.1, henq.2.1, henq.2.2⟩, hdrain.1, hdrain.2⟩

/-! ## System scheduler (`src/system_manager.rs`)

`Instant` is modelled as `Nat`.  A registered system is its self-reported
name plus its `run` behaviour (`run(now)` returning the next
`RefreshPeriod`; the system's internal state mutation is not observable
here, the run log records which systems were invoked).  `SystemManager`
holds the parallel `systems`/`refresh` vectors and the `names` hash map
(modelled as a lookup function with insert-overwrite semantics).
`update` takes the single wall-clock read `now` as its argument and returns
the new state, the returned maximum refresh value, and the list of indices
of systems whose `run` was invoked, in visit order. -/

inductive RefreshPeriod where
  | everyTime
  | atTime (t : Nat)
  | stop
deriving DecidableEq

/-- `impl Ord for RefreshPeriod`, match arm by match arm. -/
def rpCmp : RefreshPeriod → RefreshPeriod → Ordering
  | .everyTime, .everyTime => .eq
  | .everyTime, _ => .gt
  | .atTime _, .everyTime => .lt
  | .atTime a, .atTime b => compare a b
  | .atTime _, .stop => .gt
  | .stop, .stop => .eq
  | .stop, _ => .lt

/-- `a < b` under the derived `PartialOrd` (i.e. `cmp` returns `Less`). -/
def rpLt (a b : RefreshPeriod) : Bool := rpCmp a b == .lt

/-- `std::cmp::max` (returns the second argument when equal). -/
def rpMax (a b : RefreshPeriod) : RefreshPeriod := if rpLt b a then a else b

structure SystemDef where
  name : String
  run : Nat → RefreshPeriod

structure SystemManager where
  systems : List SystemDef
  refresh : List RefreshPeriod
  names : String → Option Nat

/-- `SystemManager::new()`. -/
def SystemManager.new : SystemManager := ⟨[], [], fun _ => none⟩

/-- `SystemManager::add_system`: record the name at the next index, push the
system and push an `EveryTime` refresh slot. -/
def SystemManager.addSystem (m : SystemManager) (sys : SystemDef) : SystemManager :=
  { systems := m.systems ++ [sys],
    refresh := m.refresh ++ [.everyTime],
    names := fun k => if k = sys.name then some m.systems.length else m.names k }

/-- `SystemManager::set_refresh_by_pos`. -/
def SystemManager.setRefreshByPos (m : SystemManager) (i : Nat) (v : RefreshPeriod) :
    SystemManager :=
  { m with refresh := m.refresh.set i v }

/-- `SystemManager::set_refresh(name, value)`: look the name up, write the
slot if found, do nothing otherwise. -/
def SystemManager.setRefresh (m : SystemManager) (nm : String) (v : RefreshPeriod) :
    SystemManager :=
  match m.names nm with
  | some id => m.setRefreshByPos id v
  | none => m

/-- The loop body of `SystemManager::update`, iterating
`systems.iter().enumerate().zip(refresh.iter())`: read the stored refresh,
fold it into `ret` with `max`, and when `RefreshPeriod::At(now) < refresh`
invoke `run(now)` and store the result if it differs.  Returns the new
refresh vector, the folded `ret`, and the indices of invoked systems. -/
def updateAux (now : Nat) (idx : Nat) :
    List SystemDef → List RefreshPeriod → RefreshPeriod →
    List RefreshPeriod × RefreshPeriod × List Nat
  | [], rs, ret => (rs, ret, [])
  | _ :: _, [], ret => ([], ret, [])
  | sys :: ss, r :: rs, ret =>
    if rpLt (.atTime now) r then
      let newR := sys.run now
      let r' := if newR ≠ r then newR else r
      let res := updateAux now (idx + 1) ss rs (rpMax ret r)
      (r' :: res.1, res.2.1, idx :: res.2.2)
    else
      let res := updateAux now (idx + 1) ss rs (rpMax ret r)
      (r :: res.1, res.2.1, res.2.2)

/-- `SystemManager::update`, with the single `Instant::now()` read passed in
as `now` (the flush of the event bus after each run mutates only the
dispatcher and is dropped here). -/
def SystemManager.update (m : SystemManager) (now : Nat) :
    SystemManager × RefreshPeriod × List Nat :=
  let res := updateAux now 0 m.systems m.refresh .stop
  ({ m with refresh := res.1 }, res.2.1, res.2.2)

/-- The scheduler state of the claimed `At`-semantics scenario: one system
whose stored refresh state is `At(10)`.  Built through the public API:
register the system, then `set_refresh` its slot to `At(10)`. -/
def c1Manager : SystemManager :=
  (SystemManager.new.addSystem ⟨"s", fun _ => RefreshPeriod.everyTime⟩).setRefresh
    "s" (.atTime 10)

/-- **C1.** Evaluation of `update` at the scenario the claim describes,
showing the code contradicts it (and its own doc comments, which call the
`run` result "the next execution time" and `At` "after a date"): for a
stored state `At(10)`, `update` with `now = 5 < 10` **invokes** the system
(run log `[0]`) where claim and docs say skip, and `update` with
`now = 20 ≥ 10` **skips** it (run log `[]`) where claim and docs say run —
moreover the skipped system's state stays `At(10)`, so it is never run
again after the instant passes.  The run gate in the source is
`RefreshPeriod::At(now) < refresh`, which for `At(t)` states runs exactly
when `now < t`. -/
theorem scheduler_at_gate_inverted :
    (c1Manager.update 5).2.2 = [0] ∧
    (c1Manager.update 20).2.2 = [] ∧
    (c1Manager.update 20).1.refresh = [.atTime 10] ∧
    (c1Manager.update 20).2.1 = .atTime 10 := by
  refine ⟨?_, ?_, ?_, ?_⟩ <;> rfl

/-- Two distinct systems registered under the same name `"a"`. -/
def c8Manager : SystemManager :=
  (SystemManager.new.addSystem ⟨"a", fun _ => RefreshPeriod.everyTime⟩).addSystem
    ⟨"a", fun _ => RefreshPeriod.stop⟩

/-- **C8 counterexample.** With two systems registered under the same name,
`update` runs **both** (run log `[0, 1]`), so it is false that only the most
recently registered system for the name runs: the earlier registration, at
index `0`, is still invoked. -/
theorem duplicate_name_both_run :
    (c8Manager.update 0).2.2 = [0, 1] ∧ (0 : Nat) ∈ (c8Manager.update 0).2.2 := by
  have h : (c8Manager.update 0).2.2 = [0, 1] := rfl
  exact ⟨h, by rw [h]; exact List.mem_cons_self 0 [1]⟩

lemma updateAux_mem_log (now : Nat) :
    ∀ (ss : List SystemDef) (rs : List RefreshPeriod) (idx : Nat)
      (ret : RefreshPeriod) (j : Nat), ss.length = rs.length →
      (j ∈ (updateAux now idx ss rs ret).2.2 ↔
        ∃ k, k < ss.length ∧ j = idx + k ∧ rpLt (.atTime now) (rs.getD k .stop) = true) := by
  intro ss
  induction ss with
  | nil =>
    intro rs idx ret j _
    simp [updateAux]
  | cons sys ss ih =>
    intro rs idx ret j hlen
    cases rs with
    | nil => simp at hlen
    | cons r rs =>
      simp only [List.length_cons] at hlen
      have hlen' : ss.length = rs.length := by omega
      rcases Bool.eq_false_or_eq_true (rpLt (.atTime now) r) with hgate | hgate
      · have hcons : (updateAux now idx (sys :: ss) (r :: rs) ret).2.2 =
            idx :: (updateAux now (idx + 1) ss rs (rpMax ret r)).2.2 := by
          rw [updateAux, if_pos hgate]
        rw [hcons]
        simp only [List.mem_cons, List.length_cons]
        rw [ih rs (idx + 1) (rpMax ret r) j hlen']
        constructor
        · rintro (rfl | ⟨k, hk, rfl, hr⟩)
          · exact ⟨0, by omega, by omega, by simpa using hgate⟩
          · exact ⟨k + 1, by omega, by omega, by simpa using hr⟩
        · rintro ⟨k, hk, rfl, hr⟩
          cases k with
          | zero => exact Or.inl (by omega)
          | succ k =>
            refine Or.inr ⟨k, by omega, by omega, ?_⟩
            simpa using hr
      · have hcons : (updateAux now idx (sys :: ss) (r :: rs) ret).2.2 =
            (updateAux now (idx + 1) ss rs (rpMax ret r)).2.2 := by
          rw [updateAux, if_neg (by simp [hgate])]
        rw [hcons, ih rs (idx + 1) (rpMax ret r) j hlen']
        simp only [List.length_cons]
        constructor
        · rintro ⟨k, hk, rfl, hr⟩
          exact ⟨k + 1, by omega, by omega, by simpa using hr⟩
        · rintro ⟨k, hk, rfl, hr⟩
          cases k with
          | zero =>
            simp only [List.getD_cons_zero] at hr
            rw [hgate] at hr
            exact absurd hr (by simp)
          | succ k =>
            refine ⟨k, by omega, by omega, ?_⟩
            simpa using hr

/-- **C8 amended.** Registering a system under an already-used name does
*not* replace the earlier system: it appends a new slot (initialized to
run-every-tick) and redirects the name to the new index, so `set_refresh`
with that name addresses only the newest slot, while the earlier system
remains registered and is still visited and run by `update` whenever its own
stored refresh state passes the run gate. -/
theorem duplicate_name_appends (m : SystemManager) (sys : SystemDef)
    (hlen : m.systems.length = m.refresh.length) :
    ((m.addSystem sys).systems = m.systems ++ [sys]) ∧
    ((m.addSystem sys).refresh = m.refresh ++ [RefreshPeriod.everyTime]) ∧
    ((m.addSystem sys).names sys.name = some m.systems.length) ∧
    (∀ k, k ≠ sys.name → (m.addSystem sys).names k = m.names k) ∧
    (∀ v, ((m.addSystem sys).setRefresh sys.name v).refresh = m.refresh ++ [v]) ∧
    (∀ now j, j ∈ ((m.addSystem sys).update now).2.2 ↔
      ∃ k, k < m.systems.length + 1 ∧ j = k ∧
        rpLt (.atTime now)
          ((m.refresh ++ [RefreshPeriod.everyTime]).getD k .stop) = true) := by
  refine ⟨rfl, rfl, by simp [SystemManager.addSystem], ?_, ?_, ?_⟩
  · intro k hk
    simp [SystemManager.addSystem, hk]
  · intro v
    have hname : (m.addSystem sys).names sys.name = some m.systems.length := by
      simp [SystemManager.addSystem]
    rw [SystemManager.setRefresh, hname]
    show ((m.refresh ++ [RefreshPeriod.everyTime]).set m.systems.length v) =
      m.refresh ++ [v]
    rw [hlen, List.set_append_right _ _ (Nat.le_refl _)]
    simp
  · intro now j
    have hlens : (m.addSystem sys).systems.length = (m.addSystem sys).refresh.length := by
      show (m.systems ++ [sys]).length = (m.refresh ++ [RefreshPeriod.everyTime]).length
      simp [hlen]
    have h := updateAux_mem_log now (m.addSystem sys).systems (m.addSystem sys).refresh
      0 .stop j hlens
    have hlog : ((m.addSystem sys).update now).2.2 =
        (updateAux now 0 (m.addSystem sys).systems (m.addSystem sys).refresh .stop).2.2 := rfl
    rw [hlog, h]
    have hsyslen : (m.addSystem sys).systems.length = m.systems.length + 1 := by
      show (m.systems ++ [sys]).length = m.systems.length + 1
      simp
    rw [hsyslen]
    constructor
    · rintro ⟨k, hk, hj, hr⟩
      exact ⟨k, hk, by omega, hr⟩
    · rintro ⟨k, hk, hj, hr⟩
      exact ⟨k, hk, by omega, hr⟩

/-- Witness for `duplicate_name_appends`, at the two-`"a"`-systems manager:
the second registration of `"a"` keeps the first system in the list, starts
the new slot at `EveryTime`, points the name at index `1`, makes
`set_refresh("a", Stop)` write only slot `1`, and `update` still runs the
earlier system (index `0` passes the gate). -/
theorem duplicate_name_appends_witness :
    (c8Manager.systems =
      (SystemManager.new.addSystem ⟨"a", fun _ => RefreshPeriod.everyTime⟩).systems ++
        [⟨"a", fun _ => RefreshPeriod.stop⟩]) ∧
    (c8Manager.refresh = [RefreshPeriod.everyTime, RefreshPeriod.everyTime]) ∧
    (c8Manager.names "a" = some 1) ∧
    ((c8Manager.setRefresh "a" .stop).refresh = [RefreshPeriod.everyTime, RefreshPeriod.stop]) ∧
    ((0 : Nat) ∈ (c8Manager.update 0).2.2) := by
  have hc : c8Manager =
      (SystemManager.new.addSystem ⟨"a", fun _ => RefreshPeriod.everyTime⟩).addSystem
        ⟨"a", fun _ => RefreshPeriod.stop⟩ := rfl
  have h := duplicate_name_appends
    (SystemManager.new.addSystem ⟨"a", fun _ => RefreshPeriod.everyTime⟩)
    ⟨"a", fun _ => RefreshPeriod.stop⟩ rfl
  refine ⟨by rw [hc]; exact h.1, by rw [hc]; exact h.2.1, by rw [hc]; exact h.2.2.1,
    by rw [hc]; exact h.2.2.2.2.1 .stop, ?_⟩
  rw [hc, h.2.2.2.2.2 0 0]
  exact ⟨0, by omega, rfl, rfl⟩


/-- **C10.** `set_refresh` with a name under which no system is registered is
a no-op: the manager is returned unchanged (in particular no panic — the
source only indexes `refresh` when the name lookup succeeds). -/
theorem set_refresh_unknown_name (m : SystemManager) (nm : String)
    (v : RefreshPeriod) (h : m.names nm = none) :
    m.setRefresh nm v = m := by
  rw [SystemManager.setRefresh, h]

/-- Witness for `set_refresh_unknown_name`: on a manager with one system
named `"s"`, `set_refresh("t", Stop)` changes nothing. -/
theorem set_refresh_unknown_name_witness :
    (SystemManager.new.addSystem ⟨"s", fun _ => RefreshPeriod.everyTime⟩).setRefresh
        "t" .stop =
      SystemManager.new.addSystem ⟨"s", fun _ => RefreshPeriod.everyTime⟩ :=
  set_refresh_unknown_name _ "t" .stop (by rfl)

end EntitySystem
